import Mathlib

/-!
# Verification of `preprocess_jumia_data.py`

A shallow embedding of the single-file ETL pipeline in
`src/preprocess_jumia_data.py` (pandas), together with proofs of the
testable properties stated in the specification.

Modelling conventions:

* A pandas `DataFrame` is an association list of named columns, in order.
  A column is either numeric (`float`/`int` dtype, cells `Option ℚ`,
  `none` = NaN) or textual (`object` dtype of strings, cells
  `Option String`, `none` = NaN).  These are the only dtypes produced by
  `pd.read_csv` on the CSV inputs this pipeline consumes.
* Machine floats are modelled by `ℚ`; every constant appearing in the
  claims is exactly representable.
* Python string/regex functions (`str.lower`, `str.title`, `\d`, `\b`,
  `\w`) are modelled with their ASCII semantics, which agree with Python
  on all inputs appearing in the claims.
* Fallible pandas operations (an uncaught `ValueError`/`AttributeError`
  aborting the per-file run) are modelled with `Option`/`Except`, and the
  `try`/`except` in `feature_engineering` is modelled by returning the
  partially mutated frame together with a `raised` flag.
-/

set_option linter.unusedVariables false

set_option allowUnsafeReducibility true

attribute [local semireducible] Rat.add Rat.sub Rat.mul Rat.inv

namespace Jumia

/-- A column of a pandas dataframe: numeric dtype (cells `Option ℚ`,
`none` modelling NaN) or object dtype holding strings. -/
inductive ColData where
  | num : List (Option ℚ) → ColData
  | str : List (Option String) → ColData
deriving DecidableEq, Repr

/-- Number of cells in a column. -/
def ColData.length : ColData → Nat
  | .num l => l.length
  | .str l => l.length

/-- Whether a column has numeric dtype (`pd.api.types.is_numeric_dtype`). -/
def ColData.isNum : ColData → Bool
  | .num _ => true
  | .str _ => false

/-- A dataframe: named columns in order.  Column labels are assumed
distinct, as they are for every frame this pipeline builds. -/
abbrev DataFrame := List (String × ColData)

/-- Column labels, in order (`df.columns`). -/
def colNames (df : DataFrame) : List String := df.map (·.1)

/-- First column with the given label (`df[name]`). -/
def getCol : DataFrame → String → Option ColData
  | [], _ => none
  | (m, d) :: rest, n => if m = n then some d else getCol rest n

/-- `name in df.columns`. -/
def hasCol (df : DataFrame) (n : String) : Bool := (getCol df n).isSome

/-- `df[name] = data`: overwrite the (first) existing column with this
label, or append a new column at the end, as pandas assignment does. -/
def setCol : DataFrame → String → ColData → DataFrame
  | [], n, d => [(n, d)]
  | (m, e) :: rest, n, d =>
      if m = n then (m, d) :: rest else (m, e) :: setCol rest n d

/-- `df.rename(columns={o: n})`: rename every column labelled `o`. -/
def renameCol (df : DataFrame) (o n : String) : DataFrame :=
  df.map (fun p => (if p.1 = o then n else p.1, p.2))

/-- Number of rows: the length of the first column (our frames are
rectangular; a frame with no columns is modelled as having no rows). -/
def nRows (df : DataFrame) : Nat :=
  match df with
  | [] => 0
  | c :: _ => c.2.length

/-- Rectangularity: every column has `nRows df` cells.  This is the
standing invariant of a real pandas frame. -/
def WF (df : DataFrame) : Bool :=
  df.all (fun p => p.2.length == nRows df)

/-! ## String helpers (ASCII model of the Python primitives) -/

/-- Does `pat` occur at the head of `s`? -/
def subAt : List Char → List Char → Bool
  | [], _ => true
  | _ :: _, [] => false
  | a :: as, b :: bs => a == b && subAt as bs

/-- Does `pat` occur anywhere in `s` (Python `pat in s`)? -/
def hasSub (pat : List Char) : List Char → Bool
  | [] => pat.isEmpty
  | s@(_ :: rest) => subAt pat s || hasSub pat rest

/-- `col.lower().replace(' ', '_')`, the body of
`standardize_column_names` — per-character: ASCII lowercase, then a
space becomes an underscore. -/
def normChar (c : Char) : Char :=
  let l := c.toLower
  if l = ' ' then '_' else l

/-- Normalize one column label. -/
def normalizeName (s : String) : String := ⟨s.data.map normChar⟩

/-- `standardize_column_names` (source lines 31–37): rename every column
to its lowercase, underscore-for-space form. -/
def standardize_column_names (df : DataFrame) : DataFrame :=
  df.map (fun p => (normalizeName p.1, p.2))

/-! ## Price cleaning (`clean_price_data`, source lines 39–63) -/

/-- ASCII `str.lower()`. -/
def lowerStr (s : String) : String := ⟨s.data.map Char.toLower⟩

/-- A character matched by the class `[\d\.,]`. -/
def numRunChar (c : Char) : Bool := c.isDigit || c == '.' || c == ','

/-- First match of the regex `(\d+[\d\.,]*)` (`str.extract` in
`clean_price_data`): the token starting at the first digit, extended
greedily over digits, dots and commas. -/
def extractNumToken : List Char → Option (List Char)
  | [] => none
  | c :: cs =>
      if c.isDigit then some (List.takeWhile numRunChar (c :: cs))
      else extractNumToken cs

/-- `str.replace(',', '')`. -/
def stripCommas (l : List Char) : List Char := l.filter (fun c => c != ',')

/-- Value of a digit string. -/
def digitsToNat (l : List Char) : Nat :=
  l.foldl (fun a c => 10 * a + (c.toNat - 48)) 0

/-- Python `str.split(sep)` for a one-character separator. -/
def splitCh (c : Char) : List Char → List (List Char)
  | [] => [[]]
  | a :: as =>
      let r := splitCh c as
      if a == c then [] :: r
      else
        match r with
        | [] => [[a]]
        | h :: t => (a :: h) :: t

/-- Python `float(s)` restricted to the digit/dot strings this pipeline
feeds it (the extracted tokens after comma removal; signs, exponents and
whitespace never occur there).  `none` models a `ValueError`. -/
def parsePyFloat (l : List Char) : Option ℚ :=
  match splitCh '.' l with
  | [ip] =>
      if ip ≠ [] ∧ ip.all Char.isDigit then some (digitsToNat ip) else none
  | [ip, fp] =>
      if (ip ≠ [] ∨ fp ≠ []) ∧ ip.all Char.isDigit ∧ fp.all Char.isDigit then
        some (digitsToNat ip + digitsToNat fp / 10 ^ fp.length)
      else none
  | _ => none

/-- One cell of `df[col].astype(str).str.extract(r'(\d+[\d\.,]*)')`
followed by `str.replace(',', '').astype(float)`.  A NaN cell renders as
`"nan"` (no digits) and stays NaN; a cell with no numeric substring
becomes NaN; a parse failure of the extracted token is the uncaught
`ValueError` (`none`). -/
def cleanPriceCell : Option String → Option (Option ℚ)
  | none => some none
  | some s =>
      match extractNumToken s.data with
      | none => some none
      | some tok =>
          match parsePyFloat (stripCommas tok) with
          | some q => some (some q)
          | none => none

/-- Clean a whole textual price column. -/
def cleanPriceCol (l : List (Option String)) : Option (List (Option ℚ)) :=
  l.mapM cleanPriceCell

/-- `df.rename(columns={'product_price': 'price'})`, guarded as in the
source. -/
def renamePriceStep (df : DataFrame) : DataFrame :=
  if hasCol df "product_price" then renameCol df "product_price" "price"
  else df

/-- The scan over `price_columns`: any column whose lowercased label
contains `"price"` and is not already numeric is converted. -/
def cleanPriceEntry (p : String × ColData) : Option (String × ColData) :=
  match p.2 with
  | .num _ => some p
  | .str l =>
      if hasSub ("price".data) ((lowerStr p.1).data) then
        (cleanPriceCol l).map (fun l2 => (p.1, .num l2))
      else some p

def cleanPriceCols (df : DataFrame) : Option DataFrame :=
  df.mapM cleanPriceEntry

/-- `clean_price_data` (source lines 39–63).  `none` models the uncaught
`ValueError` from `astype(float)`, which aborts the per-file run. -/
def clean_price_data (df : DataFrame) : Option DataFrame :=
  cleanPriceCols (renamePriceStep df)

/-! ## Attribute extraction (`extract_attributes`, source lines 65–99) -/

/-- ASCII model of Python `str.strip()`. -/
def stripStr (s : String) : String :=
  ⟨((s.data.dropWhile Char.isWhitespace).reverse.dropWhile
      Char.isWhitespace).reverse⟩

/-- ASCII model of Python `str.title()`: the first character of each
maximal run of letters is uppercased, the rest lowercased. -/
def titleAux : Bool → List Char → List Char
  | _, [] => []
  | prev, c :: cs =>
      if c.isAlpha then
        (if prev then c.toLower else c.toUpper) :: titleAux true cs
      else c :: titleAux false cs

def titleStr (s : String) : String := ⟨titleAux false s.data⟩

/-- A regex word character (`\w`, ASCII). -/
def wordChar (c : Char) : Bool := c.isAlphanum || c == '_'

/-- The literal alternatives of the size pattern
`r'\b(XS|S|M|L|XL|XXL|XXXL|[0-9]+)\b'`, in alternation order. -/
def sizeTokens : List (List Char) :=
  ["XS".data, "S".data, "M".data, "L".data, "XL".data, "XXL".data,
   "XXXL".data]

/-- Does token `t` match at the head of `s` with a word boundary after
it? -/
def tokenAt (t s : List Char) : Bool :=
  subAt t s &&
    (match s.drop t.length with
     | [] => true
     | c :: _ => !wordChar c)

/-- Try the alternation at one position (the literal tokens in order,
then a maximal digit run), including the trailing `\b`. -/
def tryAlts (s : List Char) : Option (List Char) :=
  match sizeTokens.find? (fun t => tokenAt t s) with
  | some t => some t
  | none =>
      match s with
      | [] => none
      | c :: _ =>
          if c.isDigit then
            let r := s.takeWhile Char.isDigit
            match s.drop r.length with
            | [] => some r
            | c2 :: _ => if wordChar c2 then none else some r
          else none

/-- Left-to-right scan of `re.search`: try the alternation at every
position opening a word (`\b` before a word character); the state is
whether the previous character was a word character. -/
def scanSize (prevW : Bool) : List Char → Option (List Char)
  | [] => none
  | c :: cs =>
      if !prevW && wordChar c then
        match tryAlts (c :: cs) with
        | some r => some r
        | none => scanSize (wordChar c) cs
      else scanSize (wordChar c) cs

/-- `df['name'].str.extract(r'\b(XS|S|M|L|XL|XXL|XXXL|[0-9]+)\b')` on
one cell. -/
def extractSize (s : String) : Option String :=
  (scanSize false s.data).map (fun l => ⟨l⟩)

/-- `str.split(' ').str[0]`: the characters before the first space. -/
def firstToken (s : String) : String := ⟨s.data.takeWhile (fun c => c != ' ')⟩

/-- Cell `i` of a column as a Python object rendered into the object
dtype `extracted_size` column (the `sizes` fallback).  A numeric value
is modelled by its rational rendering; no claim depends on that
rendering. -/
def cellStr : ColData → Nat → Option String
  | .str l, i => (l.get? i).join
  | .num l, i => ((l.get? i).join).map (fun q => toString q)

/-- Stage 1 of `extract_attributes` (lines 69–71): add the `category`
column, broadcast over the rows, when it is absent. -/
def attrCategoryStep (df : DataFrame) (category_name : String) : DataFrame :=
  if hasCol df "category" then df
  else
    setCol df "category"
      (.str (List.replicate (nRows df) (some category_name)))

/-- Stage 2 (lines 73–81): rename `product_name` to `name`, then strip
and title-case its cells.  `none` models an uncaught exception: the
rename duplicating an existing `name` label (so `df['name']` yields a
frame and `.str` raises), or the `.str` accessor on a numeric column. -/
def attrNameStep (df : DataFrame) : Option DataFrame :=
  if hasCol df "product_name" then
    if hasCol df "name" then none
    else
      let df := renameCol df "product_name" "name"
      match getCol df "name" with
      | some (.str l) =>
          some (setCol df "name"
            (.str (l.map (Option.map (fun s => titleStr (stripStr s))))))
      | some (.num _) => none
      | none => none
  else some df

/-- Stage 3 (lines 83–92): derive `extracted_size` from `name` when
absent, falling back to a `sizes` column on rows with no match. -/
def attrSizeStep (df : DataFrame) : Option DataFrame :=
  if hasCol df "name" && !hasCol df "extracted_size" then
    match getCol df "name" with
    | some (.str nd) =>
        let es : List (Option String) := nd.map (fun o => o.bind extractSize)
        let es :=
          match getCol df "sizes" with
          | some sz =>
              es.enum.map (fun p =>
                match p.2 with
                | some v => some v
                | none => cellStr sz p.1)
          | none => es
        some (setCol df "extracted_size" (.str es))
    | some (.num _) => none
    | none => none
  else some df

/-- Stage 4 (lines 94–97): derive `brand` as the first space-delimited
token of `name` when absent. -/
def attrBrandStep (df : DataFrame) : Option DataFrame :=
  if hasCol df "name" && !hasCol df "brand" then
    match getCol df "name" with
    | some (.str nd) =>
        some (setCol df "brand" (.str (nd.map (Option.map firstToken))))
    | some (.num _) => none
    | none => none
  else some df

/-- `extract_attributes` (source lines 65–99).  `none` models an
uncaught exception aborting the per-file run. -/
def extract_attributes (df : DataFrame) (category_name : String) :
    Option DataFrame :=
  (attrNameStep (attrCategoryStep df category_name)).bind
    (fun df => (attrSizeStep df).bind attrBrandStep)

/-! ## Missing values and duplicates
(`handle_missing_and_duplicates`, source lines 101–125) -/

/-- One cell of a row, tagged with its column dtype. -/
inductive Cell where
  | cn : Option ℚ → Cell
  | cs : Option String → Cell
deriving DecidableEq

/-- Cell `i` of a column (out-of-range reads give NaN; they never occur
on rectangular frames). -/
def cellAt (d : ColData) (i : Nat) : Cell :=
  match d with
  | .num l => .cn ((l.get? i).getD none)
  | .str l => .cs ((l.get? i).getD none)

/-- Row `i` of a frame. -/
def rowAt (df : DataFrame) (i : Nat) : List Cell := df.map (fun p => cellAt p.2 i)

/-- All rows of a frame, in order. -/
def rows (df : DataFrame) : List (List Cell) :=
  (List.range (nRows df)).map (rowAt df)

/-- `fillna(0)` on numeric columns, `fillna('Unknown')` on object
columns (lines 108–114). -/
def fillCol : ColData → ColData
  | .num l => .num (l.map (fun o => some (o.getD 0)))
  | .str l => .str (l.map (fun o => some (o.getD "Unknown")))

def fillMissing (df : DataFrame) : DataFrame :=
  df.map (fun p => (p.1, fillCol p.2))

/-- The row indices `df.drop_duplicates()` keeps: those whose row
differs from every earlier row. -/
def keepIdx (df : DataFrame) : List Nat :=
  (List.range (nRows df)).filter
    (fun i => decide (rowAt df i ∉ (List.range i).map (rowAt df)))

/-- Restrict a column to the given row indices, in order. -/
def selectIdx (idxs : List Nat) : ColData → ColData
  | .num l => .num (idxs.map (fun i => (l.get? i).getD none))
  | .str l => .str (idxs.map (fun i => (l.get? i).getD none))

/-- `df.drop_duplicates()` (line 118). -/
def dropDuplicates (df : DataFrame) : DataFrame :=
  df.map (fun p => (p.1, selectIdx (keepIdx df) p.2))

/-- `handle_missing_and_duplicates` (source lines 101–125): fill
missing values, then drop exact duplicate rows. -/
def handle_missing_and_duplicates (df : DataFrame) : DataFrame :=
  dropDuplicates (fillMissing df)

/-- No NaN anywhere in a column. -/
def ColData.filled : ColData → Bool
  | .num l => l.all (fun o => o.isSome)
  | .str l => l.all (fun o => o.isSome)

/-- No NaN anywhere in the frame (`df.isnull().sum().sum() == 0`). -/
def allFilled (df : DataFrame) : Bool := df.all (fun p => p.2.filled)

/-- Fill one cell as `handle_missing_and_duplicates` does. -/
def fillCell : Cell → Cell
  | .cn o => .cn (some (o.getD 0))
  | .cs o => .cs (some (o.getD "Unknown"))

/-! ## Discount feature (`feature_engineering`, source lines 127–148) -/

/-- The literal part of the pattern `r'old price ₦([\d,]+)'`. -/
def markerOld : List Char := "old price ₦".data

/-- `re.search` for `old price ₦([\d,]+)` on one cell: at each position,
the literal must match and be followed by a nonempty run of digits or
commas; the greedy run is captured. -/
def scanOldPrice : List Char → Option String
  | [] => none
  | s@(_ :: rest) =>
      if subAt markerOld s then
        let r := (s.drop markerOld.length).takeWhile
          (fun c => c.isDigit || c == ',')
        if r.isEmpty then scanOldPrice rest else some ⟨r⟩
      else scanOldPrice rest

/-- `pd.to_numeric(capture.str.replace(',', ''), errors='coerce')`: the
comma-stripped capture is a (possibly empty) digit string; empty
coerces to NaN. -/
def parseOldPrice (s : String) : Option ℚ :=
  let t := stripCommas s.data
  if t.isEmpty then none else some ((digitsToNat t : ℚ))

/-- Floor of a rational (denominators are positive, so Euclidean
division floors). -/
def qfloor (q : ℚ) : Int := Int.ediv q.num q.den

/-- IEEE/numpy `round` rounds half to even. -/
def roundHalfEven (q : ℚ) : Int :=
  let f := qfloor q
  let r := q - (f : ℚ)
  if r < 1 / 2 then f
  else if 1 / 2 < r then f + 1
  else if f % 2 = 0 then f else f + 1

/-- `Series.round(2)` on one value.  (Float rounding is modelled exactly
on ℚ; no claim depends on a half-cent tie.) -/
def round2 (q : ℚ) : ℚ := (roundHalfEven (q * 100) : ℚ) / 100

/-- The body of `feature_engineering` (source lines 127–148) together
with its `try`/`except`: the result is the frame visible to the caller
(the partially mutated frame when an exception was caught) and a flag
recording whether the `except` branch ran.

Exception points, mirroring pandas:
* line 135 `.str` accessor on a numeric `price_info` column raises
  before any mutation;
* line 142 subtracting an object-dtype `price` column raises after
  `old_price` was added;
* line 144 `Series.round` on a pre-existing object-dtype
  `discount_percentage` column raises (modelled as returning the frame
  before the `.loc` assignment). -/
def feature_engineering_run (df : DataFrame) : DataFrame × Bool :=
  if hasCol df "price_info" && hasCol df "price" then
    match getCol df "price_info" with
    | some (.num _) => (df, true)
    | some (.str pdata) =>
        let oldRaw : List (Option String) :=
          pdata.map (fun o => o.bind (fun s => scanOldPrice s.data))
        let oldNum : List (Option ℚ) := oldRaw.map (fun o => o.bind parseOldPrice)
        let df1 := setCol df "old_price" (.num oldNum)
        let mask : List Bool :=
          oldNum.map (fun o =>
            match o with
            | some q => decide (0 < q)
            | none => false)
        if mask.any id then
          match getCol df1 "price" with
          | some (.num prices) =>
              match getCol df1 "discount_percentage" with
              | some (.str _) => (df1, true)
              | some (.num oldDisc) =>
                  let disc : List (Option ℚ) :=
                    (List.range (nRows df1)).map (fun i =>
                      if (mask.get? i).getD false then
                        match (oldNum.get? i).getD none,
                            (prices.get? i).getD none with
                        | some oq, some pq => some ((oq - pq) / oq * 100)
                        | _, _ => none
                      else (oldDisc.get? i).getD none)
                  (setCol df1 "discount_percentage"
                    (.num (disc.map (Option.map round2))), false)
              | none =>
                  let disc : List (Option ℚ) :=
                    (List.range (nRows df1)).map (fun i =>
                      if (mask.get? i).getD false then
                        match (oldNum.get? i).getD none,
                            (prices.get? i).getD none with
                        | some oq, some pq => some ((oq - pq) / oq * 100)
                        | _, _ => none
                      else none)
                  (setCol df1 "discount_percentage"
                    (.num (disc.map (Option.map round2))), false)
          | some (.str _) => (df1, true)
          | none => (df1, true)
        else (df1, false)
    | none => (df, true)
  else (df, false)

/-- `feature_engineering` as the caller sees it: the `try`/`except`
always yields a frame. -/
def feature_engineering (df : DataFrame) : DataFrame :=
  (feature_engineering_run df).1

/-! ## Category label from the file name (`process_file`, line 155)
`os.path.basename(file_path).split('_')[-1].split('.')[0]` -/

/-- The suffix after the last occurrence of `c` (the whole list when
`c` does not occur). -/
def afterLast (c : Char) (l : List Char) : List Char :=
  (l.reverse.takeWhile (fun a => a != c)).reverse

/-- `os.path.basename`: the part after the last path separator. -/
def basenameChars (p : String) : List Char := afterLast '/' p.data

/-- The source's category label: last `'_'`-segment of the base name,
then its first `'.'`-segment. -/
def categoryName (p : String) : String :=
  ⟨(splitCh '.' ((splitCh '_' (basenameChars p)).getLastD [])).headD []⟩

/-- The claim's reading: the part after the last underscore and before
the **extension** (everything up to the last dot, or the whole segment
when it has no dot). -/
def specCategoryByExtension (p : String) : String :=
  let t := afterLast '_' (basenameChars p)
  if t.any (fun a => a == '.') then
    ⟨((t.reverse.dropWhile (fun a => a != '.')).drop 1).reverse⟩
  else ⟨t⟩

/-- The amended reading: the part after the last underscore and before
the **first dot**. -/
def specCategoryFirstDot (p : String) : String :=
  ⟨(afterLast '_' (basenameChars p)).takeWhile (fun a => a != '.')⟩

/-! ## Per-file orchestrator (`process_file`, source lines 150–173) -/

/-- The per-category output artifact name (line 169). -/
def outputFileName (p : String) : String :=
  "processed_" ++ categoryName p ++ ".csv"

/-- `process_file` (source lines 150–173): standardize columns, clean
prices, extract attributes (tagged with the file-name category label),
handle missing values and duplicates, derive the discount feature, and
return the frame keyed by the output file name.  `none` models an
uncaught exception aborting the run. -/
def process_file (p : String) (df : DataFrame) : Option (String × DataFrame) :=
  (clean_price_data (standardize_column_names df)).bind (fun df2 =>
    (extract_attributes df2 (categoryName p)).map (fun df3 =>
      (outputFileName p, feature_engineering (handle_missing_and_duplicates df3))))

/-! ## Aggregation (`combine_datasets`, lines 175–187) and summary
(`create_summary_statistics`, lines 189–216) -/

/-- A value of the combined frame: `pd.concat` erases per-frame dtypes,
so cells are bare Python objects (float or string) or NaN. -/
inductive UVal where
  | n : ℚ → UVal
  | s : String → UVal
deriving DecidableEq, Repr

/-- A typed column seen as an object column. -/
def toU : ColData → List (Option UVal)
  | .num l => l.map (fun o => o.map UVal.n)
  | .str l => l.map (fun o => o.map UVal.s)

/-- The combined frame. -/
abbrev UFrame := List (String × List (Option UVal))

def getColU : UFrame → String → Option (List (Option UVal))
  | [], _ => none
  | (m, d) :: rest, n => if m = n then some d else getColU rest n

def hasColU (u : UFrame) (n : String) : Bool := (getColU u n).isSome

def nRowsU : UFrame → Nat
  | [] => 0
  | c :: _ => c.2.length

/-- The block a frame contributes to a combined column: its own data,
or NaN padding when it lacks the column. -/
def uDataOf (df : DataFrame) (n : String) (pad : Nat) : List (Option UVal) :=
  match getCol df n with
  | some d => toU d
  | none => List.replicate pad none

/-- `pd.concat([df1, df2], ignore_index=True)` (line 180): columns in
order of first appearance; a frame missing a column contributes NaN
rows. -/
def combine_datasets (d1 d2 : DataFrame) : UFrame :=
  (d1.map (fun p => (p.1, toU p.2 ++ uDataOf d2 p.1 (nRows d2)))) ++
    ((d2.filter (fun p => !hasCol d1 p.1)).map
      (fun p => (p.1, List.replicate (nRows d1) none ++ toU p.2)))

/-- Keep-first deduplication (the distinct keys of a `groupby` /
`value_counts`, in first-appearance order; pandas orders keys
differently, which no claim depends on). -/
def dedupF {α : Type} [DecidableEq α] : List α → List α → List α
  | _, [] => []
  | seen, a :: rest =>
      if a ∈ seen then dedupF seen rest else a :: dedupF (a :: seen) rest

def qsum (l : List ℚ) : ℚ := l.foldr (fun a b => a + b) 0

def qmin : List ℚ → Option ℚ
  | [] => none
  | a :: rest => some (rest.foldl (fun x y => if y < x then y else x) a)

def qmax : List ℚ → Option ℚ
  | [] => none
  | a :: rest => some (rest.foldl (fun x y => if x < y then y else x) a)

def qmean (l : List ℚ) : Option ℚ :=
  if l.isEmpty then none else some (qsum l / (l.length : ℚ))

/-- Row indices of one `groupby('category')` group. -/
def groupIdxs (cat : List (Option UVal)) (k : UVal) : List Nat :=
  (List.range cat.length).filter
    (fun i => decide ((cat.get? i).getD none = some k))

/-- The numeric cells of a column restricted to a group (NaN and
non-numeric objects are skipped by the pandas aggregations). -/
def numCells (col : List (Option UVal)) (idxs : List Nat) : List ℚ :=
  idxs.filterMap (fun i =>
    match (col.get? i).getD none with
    | some (.n q) => some q
    | _ => none)

/-- `count`: non-null cells of a group. -/
def countNonNull (col : List (Option UVal)) (idxs : List Nat) : Nat :=
  (idxs.filter (fun i => ((col.get? i).getD none).isSome)).length

/-- One aggregated row: `price` count/mean/min/max when present, then
`discount_percentage` mean/min/max when present (the `agg_dict` of
lines 197–204). -/
def aggRow (u : UFrame) (cat : List (Option UVal)) (k : UVal) :
    List (Option ℚ) :=
  let idxs := groupIdxs cat k
  (match getColU u "price" with
   | some pc =>
      [some ((countNonNull pc idxs : ℚ)), qmean (numCells pc idxs),
       qmin (numCells pc idxs), qmax (numCells pc idxs)]
   | none => []) ++
    (match getColU u "discount_percentage" with
     | some dc =>
        [qmean (numCells dc idxs), qmin (numCells dc idxs),
         qmax (numCells dc idxs)]
     | none => [])

/-- `create_summary_statistics` (source lines 189–216): one output row
per distinct non-null `category` key (groupby drops NaN keys); the
`value_counts` fallback when neither aggregate column exists.  `none`
models the uncaught `KeyError` when `category` is absent. -/
def create_summary_statistics (u : UFrame) :
    Option (List (UVal × List (Option ℚ))) :=
  match getColU u "category" with
  | none => none
  | some cat =>
      let keys := dedupF [] (cat.filterMap id)
      if hasColU u "price" || hasColU u "discount_percentage" then
        some (keys.map (fun k => (k, aggRow u cat k)))
      else
        some (keys.map (fun k =>
          (k, [some (((groupIdxs cat k).length : ℚ))])))

/-! ## Theorems -/

/-! ### Facts about `normChar` -/

theorem toNat_char_ofNat {n : Nat} (h : n.isValidChar) :
    (Char.ofNat n).toNat = n := by
  simp [Char.ofNat, dif_pos h, Char.ofNatAux, Char.toNat, UInt32.toNat]

theorem char_isUpper_iff (c : Char) :
    c.isUpper = true ↔ 65 ≤ c.toNat ∧ c.toNat ≤ 90 := by
  simp [Char.isUpper, UInt32.le_def, BitVec.le_def, Char.toNat, UInt32.toNat]

theorem toLower_eq_ite (c : Char) :
    Char.toLower c =
      if 65 ≤ c.toNat ∧ c.toNat ≤ 90 then Char.ofNat (c.toNat + 32) else c :=
  rfl

theorem toLower_toNat_not_upper (c : Char) :
    ¬(65 ≤ (Char.toLower c).toNat ∧ (Char.toLower c).toNat ≤ 90) := by
  rw [toLower_eq_ite]
  split
  · next h =>
    rw [toNat_char_ofNat (Or.inl (by omega))]
    omega
  · next h => omega

theorem normChar_not_upper (c : Char) : (normChar c).isUpper = false := by
  unfold normChar
  by_cases h : c.toLower = ' '
  · simp [h]
  · simp only [h, if_false]
    rw [Bool.eq_false_iff]
    intro hcon
    exact toLower_toNat_not_upper c ((char_isUpper_iff _).mp hcon)

theorem normChar_ne_space (c : Char) : ¬ normChar c = ' ' := by
  unfold normChar
  by_cases h : c.toLower = ' '
  · simp [h]
  · simp [h]

theorem toLower_toLower (c : Char) : c.toLower.toLower = c.toLower := by
  conv_lhs => rw [Char.toLower]
  split
  · next h => exact absurd h (toLower_toNat_not_upper c)
  · rfl

theorem normChar_idem (c : Char) : normChar (normChar c) = normChar c := by
  unfold normChar
  by_cases h : c.toLower = ' '
  · simp [h]
  · simp only [h, if_false, toLower_toLower]

theorem normalizeName_idem (s : String) :
    normalizeName (normalizeName s) = normalizeName s := by
  unfold normalizeName
  simp only [List.map_map, Function.comp]
  congr 1
  exact List.map_congr_left (fun c _ => normChar_idem c)

/-- Claim C7 — `standardize_column_names` (source lines 31–37): every
output column name is lowercase and space-free, and the normalizer is
idempotent. -/
theorem standardize_lower_nospace_idem (df : DataFrame) :
    (∀ n ∈ colNames (standardize_column_names df),
        (∀ c ∈ n.data, c.isUpper = false) ∧ ∀ c ∈ n.data, c ≠ ' ') ∧
    standardize_column_names (standardize_column_names df) =
      standardize_column_names df := by
  constructor
  · intro n hn
    simp only [colNames, standardize_column_names, List.map_map,
      List.mem_map, Function.comp] at hn
    obtain ⟨p, hp, rfl⟩ := hn
    constructor
    · intro c hc
      simp only [normalizeName] at hc
      obtain ⟨a, ha, rfl⟩ := List.mem_map.mp hc
      exact normChar_not_upper a
    · intro c hc
      simp only [normalizeName] at hc
      obtain ⟨a, ha, rfl⟩ := List.mem_map.mp hc
      exact normChar_ne_space a
  · simp only [standardize_column_names, List.map_map]
    exact List.map_congr_left (fun p _ => by
      simp only [Function.comp]
      rw [normalizeName_idem])

/-! ### Claim C5 -/

theorem cleanPriceEntry_fst {p q : String × ColData}
    (h : cleanPriceEntry p = some q) : q.1 = p.1 := by
  unfold cleanPriceEntry at h
  rcases p with ⟨n, d⟩
  cases d with
  | num l => simp at h; simp [← h]
  | str l =>
      dsimp at h
      by_cases hs : hasSub ("price".data) ((lowerStr n).data) = true
      · rw [if_pos hs] at h
        cases hc : cleanPriceCol l with
        | none => rw [hc] at h; simp at h
        | some l2 => rw [hc] at h; simp at h; simp [← h]
      · rw [if_neg hs] at h
        simp at h
        simp [← h]

theorem cleanPriceCols_getCol {df : DataFrame} {df' : DataFrame} {n : String}
    {d : List (Option String)}
    (h : cleanPriceCols df = some df')
    (hg : getCol df n = some (.str d))
    (hs : hasSub ("price".data) ((lowerStr n).data) = true) :
    ∃ d2, getCol df' n = some (.num d2) ∧ cleanPriceCol d = some d2 := by
  induction df generalizing df' with
  | nil => simp [getCol] at hg
  | cons p rest ih =>
      rcases p with ⟨m, e⟩
      rw [cleanPriceCols, List.mapM_cons] at h
      cases hq : cleanPriceEntry (m, e) with
      | none => rw [hq] at h; simp at h
      | some q =>
          rw [hq] at h
          cases hr : rest.mapM cleanPriceEntry with
          | none => rw [hr] at h; simp at h
          | some rest' =>
              rw [hr] at h
              simp only [Option.bind_eq_bind, Option.some_bind, Option.pure_def] at h
              have hdf' : df' = q :: rest' := by
                cases h; rfl
              subst hdf'
              by_cases hmn : m = n
              · subst hmn
                rw [getCol, if_pos rfl] at hg
                have he : e = ColData.str d := by cases hg; rfl
                subst he
                unfold cleanPriceEntry at hq
                dsimp at hq
                rw [if_pos hs] at hq
                cases hc : cleanPriceCol d with
                | none => rw [hc] at hq; simp at hq
                | some d2 =>
                    rw [hc] at hq
                    simp at hq
                    refine ⟨d2, ?_, rfl⟩
                    rw [← hq, getCol, if_pos rfl]
              · rw [getCol, if_neg hmn] at hg
                have hq1 : q.1 = m := cleanPriceEntry_fst hq
                obtain ⟨d2, h1, h2⟩ := ih (by rw [cleanPriceCols]; exact hr) hg
                refine ⟨d2, ?_, h2⟩
                rcases q with ⟨q1, q2⟩
                simp only at hq1
                subst hq1
                rw [getCol, if_neg hmn]
                exact h1

theorem extractNumToken_eq_none {l : List Char}
    (h : l.any Char.isDigit = false) : extractNumToken l = none := by
  induction l with
  | nil => rfl
  | cons c cs ih =>
      rw [List.any_cons, Bool.or_eq_false_iff] at h
      rw [extractNumToken, if_neg (by simp [h.1]), ih h.2]

/-- Claim C5 — `clean_price_data` (source lines 39–63): every textual
column whose lowercased label contains `"price"` is replaced by the
cell-wise numeric extraction; the cell `"₦1,200.50"` parses to
`1200.50`, and a cell with no digits parses to NaN. -/
theorem clean_price_cleans_price_columns :
    (∀ (df df' : DataFrame) (n : String) (d : List (Option String)),
        clean_price_data df = some df' →
        getCol (renamePriceStep df) n = some (.str d) →
        hasSub ("price".data) ((lowerStr n).data) = true →
        ∃ d2, getCol df' n = some (.num d2) ∧ cleanPriceCol d = some d2) ∧
    cleanPriceCell (some "₦1,200.50") = some (some (2401 / 2)) ∧
    (∀ s : String, s.data.any Char.isDigit = false →
        cleanPriceCell (some s) = some none) := by
  refine ⟨?_, by decide, ?_⟩
  · intro df df' n d h hg hs
    exact cleanPriceCols_getCol h hg hs
  · intro s h
    rw [cleanPriceCell, extractNumToken_eq_none h]

/-- Witness for C5 at a concrete frame: a column labelled `Price`
holding `"₦1,200.50"` and a digit-free cell. -/
theorem clean_price_cleans_price_columns_witness :
    ∃ d2, getCol [("Price", ColData.num [some (2401 / 2), none])] "Price" =
        some (.num d2) ∧
      cleanPriceCol [some "₦1,200.50", some "no digits"] = some d2 :=
  clean_price_cleans_price_columns.1
    [("Price", ColData.str [some "₦1,200.50", some "no digits"])]
    [("Price", ColData.num [some (2401 / 2), none])]
    "Price" [some "₦1,200.50", some "no digits"]
    (by decide) (by decide) (by decide)

/-! ### Frame lemmas -/

theorem getCol_setCol_ne (df : DataFrame) {m n : String} (h : m ≠ n)
    (d : ColData) : getCol (setCol df m d) n = getCol df n := by
  induction df with
  | nil => simp [setCol, getCol, h]
  | cons p rest ih =>
      rcases p with ⟨k, e⟩
      rw [setCol]
      by_cases hk : k = m
      · subst hk
        rw [if_pos rfl, getCol, getCol, if_neg h, if_neg h]
      · rw [if_neg hk, getCol, getCol]
        by_cases hn : k = n
        · rw [if_pos hn, if_pos hn]
        · rw [if_neg hn, if_neg hn, ih]

theorem getCol_renameCol_ne (df : DataFrame) {o n2 n : String}
    (h1 : n ≠ o) (h2 : n ≠ n2) :
    getCol (renameCol df o n2) n = getCol df n := by
  induction df with
  | nil => rfl
  | cons p rest ih =>
      rcases p with ⟨k, e⟩
      rw [renameCol, List.map_cons]
      by_cases hk : k = o
      · subst hk
        simp only [if_pos rfl]
        rw [getCol, getCol, if_neg (fun hh => h2 hh.symm),
          if_neg (fun hh => h1 hh.symm)]
        exact ih
      · simp only [hk, if_false]
        rw [getCol, getCol]
        by_cases hn : k = n
        · rw [if_pos hn, if_pos hn]
        · rw [if_neg hn, if_neg hn]
          exact ih

theorem attrCategoryStep_getCol_ne (df : DataFrame) (cat : String)
    {n : String} (h : n ≠ "category") :
    getCol (attrCategoryStep df cat) n = getCol df n := by
  unfold attrCategoryStep
  split
  · rfl
  · exact getCol_setCol_ne df (fun hh => h hh.symm) _

theorem attrCategoryStep_of_hasCol {df : DataFrame} {cat : String}
    (h : hasCol df "category" = true) : attrCategoryStep df cat = df := by
  unfold attrCategoryStep
  rw [if_pos h]

theorem attrNameStep_getCol_ne {df out : DataFrame}
    (h : attrNameStep df = some out) {n : String}
    (h1 : n ≠ "product_name") (h2 : n ≠ "name") :
    getCol out n = getCol df n := by
  unfold attrNameStep at h
  by_cases hp : hasCol df "product_name" = true
  · rw [if_pos hp] at h
    by_cases hn : hasCol df "name" = true
    · rw [if_pos hn] at h
      exact absurd h (by simp)
    · rw [if_neg hn] at h
      dsimp at h
      cases hg : getCol (renameCol df "product_name" "name") "name" with
      | none => rw [hg] at h; exact absurd h (by simp)
      | some e =>
          rw [hg] at h
          cases e with
          | num l => exact absurd h (by simp)
          | str l =>
              have hout : out =
                  setCol (renameCol df "product_name" "name") "name"
                    (.str (l.map (Option.map (fun s => titleStr (stripStr s))))) := by
                cases h; rfl
              subst hout
              rw [getCol_setCol_ne _ (fun hh => h2 hh.symm) _]
              exact getCol_renameCol_ne df h1 h2
  · rw [if_neg hp] at h
    cases h; rfl

theorem attrSizeStep_getCol_ne {df out : DataFrame}
    (h : attrSizeStep df = some out) {n : String}
    (hn : n ≠ "extracted_size") :
    getCol out n = getCol df n := by
  unfold attrSizeStep at h
  split at h
  · cases hg : getCol df "name" with
    | none => rw [hg] at h; exact absurd h (by simp)
    | some e =>
        rw [hg] at h
        cases e with
        | num l => exact absurd h (by simp)
        | str nd =>
            dsimp at h
            have hout := (Option.some_inj.mp h).symm
            rw [hout]
            exact getCol_setCol_ne df (fun hh => hn hh.symm) _
  · cases h; rfl

theorem attrSizeStep_of_hasCol {df : DataFrame}
    (h : hasCol df "extracted_size" = true) : attrSizeStep df = some df := by
  unfold attrSizeStep
  rw [if_neg (by simp [h])]

theorem attrBrandStep_getCol_ne {df out : DataFrame}
    (h : attrBrandStep df = some out) {n : String} (hn : n ≠ "brand") :
    getCol out n = getCol df n := by
  unfold attrBrandStep at h
  split at h
  · cases hg : getCol df "name" with
    | none => rw [hg] at h; exact absurd h (by simp)
    | some e =>
        rw [hg] at h
        cases e with
        | num l => exact absurd h (by simp)
        | str nd =>
            have hout := (Option.some_inj.mp h).symm
            rw [hout]
            exact getCol_setCol_ne df (fun hh => hn hh.symm) _
  · cases h; rfl

theorem attrBrandStep_of_hasCol {df : DataFrame}
    (h : hasCol df "brand" = true) : attrBrandStep df = some df := by
  unfold attrBrandStep
  rw [if_neg (by simp [h])]

/-! ### Claims C3 and C10 -/

/-- Claim C3 — evaluation of `extract_attributes` at the claim's inputs.
The raw product name `"Nike Air Max XL"` yields **no** extracted size:
line 81 title-cases the name to `"Nike Air Max Xl"` before the
case-sensitive pattern `\b(XS|S|M|L|XL|XXL|XXXL|[0-9]+)\b` runs, so the
multi-letter uppercase alternatives can never match (the last two
conjuncts isolate the cause: the pattern alone does extract `"XL"` from
the raw name).  `"Classic Shirt 42"` still yields `"42"`. -/
theorem extract_attributes_size_on_claim_inputs :
    (extract_attributes
        [("product_name",
          ColData.str [some "Nike Air Max XL", some "Classic Shirt 42"])]
        "fashion").map (fun df => getCol df "extracted_size") =
      some (some (.str [none, some "42"])) ∧
    titleStr "Nike Air Max XL" = "Nike Air Max Xl" ∧
    extractSize "Nike Air Max XL" = some "XL" ∧
    extractSize "Nike Air Max Xl" = none := by
  refine ⟨by decide, by decide, by decide, by decide⟩

/-- Claim C10 — `extract_attributes` derives `category`,
`extracted_size` and `brand` only when absent: a pre-existing column
with one of these labels is returned unchanged. -/
theorem extract_attributes_preserves_existing (df : DataFrame)
    (cat : String) (out : DataFrame)
    (h : extract_attributes df cat = some out) :
    (hasCol df "category" = true →
        getCol out "category" = getCol df "category") ∧
    (hasCol df "extracted_size" = true →
        getCol out "extracted_size" = getCol df "extracted_size") ∧
    (hasCol df "brand" = true → getCol out "brand" = getCol df "brand") := by
  unfold extract_attributes at h
  obtain ⟨df2, h2, h3⟩ := Option.bind_eq_some.mp h
  obtain ⟨df3, h4, h5⟩ := Option.bind_eq_some.mp h3
  refine ⟨?_, ?_, ?_⟩
  · intro hc
    rw [attrBrandStep_getCol_ne h5 (by decide),
      attrSizeStep_getCol_ne h4 (by decide),
      attrNameStep_getCol_ne h2 (by decide) (by decide),
      attrCategoryStep_of_hasCol hc]
  · intro hc
    have hce : getCol df2 "extracted_size" = getCol df "extracted_size" := by
      rw [attrNameStep_getCol_ne h2 (by decide) (by decide),
        attrCategoryStep_getCol_ne df cat (by decide)]
    have hhas : hasCol df2 "extracted_size" = true := by
      rw [hasCol, hce]
      exact hc
    have h4' : df3 = df2 :=
      (Option.some_inj.mp ((attrSizeStep_of_hasCol hhas).symm.trans h4)).symm
    subst h4'
    rw [attrBrandStep_getCol_ne h5 (by decide), hce]
  · intro hc
    have hcb : getCol df3 "brand" = getCol df "brand" := by
      rw [attrSizeStep_getCol_ne h4 (by decide),
        attrNameStep_getCol_ne h2 (by decide) (by decide),
        attrCategoryStep_getCol_ne df cat (by decide)]
    have hhas : hasCol df3 "brand" = true := by
      rw [hasCol, hcb]
      exact hc
    have h5' : out = df3 :=
      (Option.some_inj.mp ((attrBrandStep_of_hasCol hhas).symm.trans h5)).symm
    subst h5'
    exact hcb

/-- Witness for C10: a frame already carrying `category`,
`extracted_size` and `brand` passes through `extract_attributes` with
those columns untouched. -/
theorem extract_attributes_preserves_existing_witness :
    (hasCol
        [("category", ColData.str [some "c"]),
         ("extracted_size", ColData.str [some "M"]),
         ("brand", ColData.str [some "B"]),
         ("name", ColData.str [some "B M"])] "category" = true) ∧
    getCol
        [("category", ColData.str [some "c"]),
         ("extracted_size", ColData.str [some "M"]),
         ("brand", ColData.str [some "B"]),
         ("name", ColData.str [some "B M"])] "category" =
      getCol
        [("category", ColData.str [some "c"]),
         ("extracted_size", ColData.str [some "M"]),
         ("brand", ColData.str [some "B"]),
         ("name", ColData.str [some "B M"])] "category" :=
  ⟨by decide,
    (extract_attributes_preserves_existing
      [("category", ColData.str [some "c"]),
       ("extracted_size", ColData.str [some "M"]),
       ("brand", ColData.str [some "B"]),
       ("name", ColData.str [some "B M"])] "lab"
      [("category", ColData.str [some "c"]),
       ("extracted_size", ColData.str [some "M"]),
       ("brand", ColData.str [some "B"]),
       ("name", ColData.str [some "B M"])] (by decide)).1 (by decide)⟩

/-! ### Dedup machinery lemmas -/

theorem length_selectIdx (idxs : List Nat) (d : ColData) :
    (selectIdx idxs d).length = idxs.length := by
  cases d <;> simp [selectIdx, ColData.length]

theorem length_fillCol (d : ColData) : (fillCol d).length = d.length := by
  cases d <;> simp [fillCol, ColData.length]

theorem nRows_fillMissing (df : DataFrame) : nRows (fillMissing df) = nRows df := by
  cases df with
  | nil => rfl
  | cons p rest => simp [fillMissing, nRows, length_fillCol]

theorem nRows_dropDuplicates (df : DataFrame) :
    nRows (dropDuplicates df) = (keepIdx df).length := by
  cases df with
  | nil => simp [dropDuplicates, nRows, keepIdx]
  | cons p rest => simp [dropDuplicates, nRows, length_selectIdx]

theorem cellAt_selectIdx (idxs : List Nat) (d : ColData) {j : Nat}
    (hj : j < idxs.length) :
    cellAt (selectIdx idxs d) j = cellAt d (idxs.get ⟨j, hj⟩) := by
  cases d with
  | num l =>
      simp only [selectIdx, cellAt]
      rw [List.get?_map, List.get?_eq_get hj]
      rfl
  | str l =>
      simp only [selectIdx, cellAt]
      rw [List.get?_map, List.get?_eq_get hj]
      rfl

theorem rowAt_dropDuplicates (df : DataFrame) {j : Nat}
    (hj : j < (keepIdx df).length) :
    rowAt (dropDuplicates df) j = rowAt df ((keepIdx df).get ⟨j, hj⟩) := by
  unfold rowAt dropDuplicates
  rw [List.map_map]
  exact List.map_congr_left (fun p _ => cellAt_selectIdx _ _ hj)

theorem rows_dropDuplicates (df : DataFrame) :
    rows (dropDuplicates df) = (keepIdx df).map (rowAt df) := by
  apply List.ext_get
  · simp [rows, nRows_dropDuplicates]
  · intro i h1 h2
    simp only [rows, List.get_map, List.get_range]
    have hi : i < (keepIdx df).length := by
      simpa using h2
    rw [rowAt_dropDuplicates df hi]

theorem keepIdx_mem {df : DataFrame} {i : Nat} (h : i ∈ keepIdx df) :
    i < nRows df ∧ rowAt df i ∉ (List.range i).map (rowAt df) := by
  obtain ⟨h1, h2⟩ := List.mem_filter.mp h
  exact ⟨List.mem_range.mp h1, of_decide_eq_true h2⟩

theorem keepIdx_pairwise (df : DataFrame) :
    (keepIdx df).Pairwise (· < ·) :=
  (List.pairwise_lt_range _).filter _

theorem rows_dropDuplicates_nodup (df : DataFrame) :
    (rows (dropDuplicates df)).Nodup := by
  rw [rows_dropDuplicates]
  show ((keepIdx df).map (rowAt df)).Pairwise (· ≠ ·)
  rw [List.pairwise_map]
  refine ((keepIdx_pairwise df).imp_of_mem ?_)
  intro a b ha hb hlt
  intro heq
  have hb' := (keepIdx_mem hb).2
  apply hb'
  rw [← heq]
  exact List.mem_map.mpr ⟨a, List.mem_range.mpr hlt, rfl⟩

theorem rowAt_mem_rows_dropDuplicates (df : DataFrame) :
    ∀ i, i < nRows df → rowAt df i ∈ rows (dropDuplicates df) := by
  intro i
  induction i using Nat.strong_induction_on with
  | _ i ih =>
      intro hi
      by_cases hmem : rowAt df i ∈ (List.range i).map (rowAt df)
      · obtain ⟨j, hj, heq⟩ := List.mem_map.mp hmem
        have hj' := List.mem_range.mp hj
        rw [← heq]
        exact ih j hj' (lt_trans hj' hi)
      · have hk : i ∈ keepIdx df :=
          List.mem_filter.mpr
            ⟨List.mem_range.mpr hi, decide_eq_true hmem⟩
        rw [rows_dropDuplicates]
        exact List.mem_map.mpr ⟨i, hk, rfl⟩

theorem rows_dropDuplicates_subset {df : DataFrame} {r : List Cell}
    (h : r ∈ rows (dropDuplicates df)) : r ∈ rows df := by
  rw [rows_dropDuplicates] at h
  obtain ⟨i, hi, rfl⟩ := List.mem_map.mp h
  exact List.mem_map.mpr
    ⟨i, List.mem_range.mpr (keepIdx_mem hi).1, rfl⟩

theorem selectIdx_fillCol_filled {d : ColData} {idxs : List Nat}
    (h : ∀ i ∈ idxs, i < d.length) :
    (selectIdx idxs (fillCol d)).filled = true := by
  cases d with
  | num l =>
      simp only [fillCol, selectIdx, ColData.filled, List.all_eq_true]
      intro o ho
      obtain ⟨i, hi, rfl⟩ := List.mem_map.mp ho
      have hlt : i < l.length := h i hi
      rw [List.get?_map, List.get?_eq_get hlt]
      simp
  | str l =>
      simp only [fillCol, selectIdx, ColData.filled, List.all_eq_true]
      intro o ho
      obtain ⟨i, hi, rfl⟩ := List.mem_map.mp ho
      have hlt : i < l.length := h i hi
      rw [List.get?_map, List.get?_eq_get hlt]
      simp

theorem WF_col_length {df : DataFrame} (h : WF df = true)
    {p : String × ColData} (hp : p ∈ df) : p.2.length = nRows df := by
  have := List.all_eq_true.mp h p hp
  simpa using this

theorem handle_missing_filled (df : DataFrame) (h : WF df = true) :
    allFilled (handle_missing_and_duplicates df) = true := by
  unfold handle_missing_and_duplicates dropDuplicates allFilled
  rw [List.all_eq_true]
  intro q hq
  obtain ⟨p, hp, rfl⟩ := List.mem_map.mp hq
  obtain ⟨p0, hp0, rfl⟩ := List.mem_map.mp hp
  dsimp only
  apply selectIdx_fillCol_filled
  intro i hi
  have h1 := (keepIdx_mem hi).1
  rw [nRows_fillMissing] at h1
  rw [WF_col_length h hp0]
  exact h1

theorem cellAt_fillCol {d : ColData} {i : Nat} (hi : i < d.length) :
    cellAt (fillCol d) i = fillCell (cellAt d i) := by
  cases d with
  | num l =>
      simp only [fillCol, cellAt, fillCell]
      rw [List.get?_map, List.get?_eq_get hi]
      rfl
  | str l =>
      simp only [fillCol, cellAt, fillCell]
      rw [List.get?_map, List.get?_eq_get hi]
      rfl

theorem rowAt_fillMissing (df : DataFrame) (h : WF df = true) {i : Nat}
    (hi : i < nRows df) :
    rowAt (fillMissing df) i = (rowAt df i).map fillCell := by
  unfold rowAt fillMissing
  rw [List.map_map, List.map_map]
  refine List.map_congr_left (fun p hp => ?_)
  simp only [Function.comp]
  exact cellAt_fillCol (by rw [WF_col_length h hp]; exact hi)

/-- Claim C6 — `handle_missing_and_duplicates` (source lines 101–125):
the output has no missing value in any column; its rows are pairwise
distinct; every (filled) input row survives; no other row appears; and
rows that were identical in the input have identical filled images, so
a group of identical input rows ends as exactly one output row. -/
theorem handle_missing_and_duplicates_spec (df : DataFrame)
    (h : WF df = true) :
    allFilled (handle_missing_and_duplicates df) = true ∧
    (rows (handle_missing_and_duplicates df)).Nodup ∧
    (∀ i, i < nRows df →
        rowAt (fillMissing df) i ∈ rows (handle_missing_and_duplicates df)) ∧
    (∀ r ∈ rows (handle_missing_and_duplicates df),
        r ∈ rows (fillMissing df)) ∧
    (∀ i j, i < nRows df → j < nRows df → rowAt df i = rowAt df j →
        rowAt (fillMissing df) i = rowAt (fillMissing df) j) := by
  refine ⟨handle_missing_filled df h, rows_dropDuplicates_nodup _, ?_, ?_, ?_⟩
  · intro i hi
    exact rowAt_mem_rows_dropDuplicates (fillMissing df) i
      (by rw [nRows_fillMissing]; exact hi)
  · intro r hr
    exact rows_dropDuplicates_subset hr
  · intro i j hi hj hij
    rw [rowAt_fillMissing df h hi, rowAt_fillMissing df h hj, hij]

/-- Witness for C6 at a frame with one NaN per column and a duplicated
row. -/
theorem handle_missing_and_duplicates_spec_witness :
    WF [("a", ColData.num [some 1, none, some 1]),
        ("b", ColData.str [some "x", none, some "x"])] = true ∧
    allFilled (handle_missing_and_duplicates
      [("a", ColData.num [some 1, none, some 1]),
       ("b", ColData.str [some "x", none, some "x"])]) = true :=
  ⟨by decide,
    (handle_missing_and_duplicates_spec
      [("a", ColData.num [some 1, none, some 1]),
       ("b", ColData.str [some "x", none, some "x"])] (by decide)).1⟩

theorem feature_engineering_run_cases (df : DataFrame) :
    (feature_engineering_run df).2 = false ∨
    feature_engineering_run df = (df, true) ∨
    ∃ l, feature_engineering_run df =
      (setCol df "old_price" (ColData.num l), true) := by
  unfold feature_engineering_run
  split
  · split
    · right; left; rfl
    · dsimp only
      split
      · split
        · split
          · right; right; exact ⟨_, rfl⟩
          · left; rfl
          · left; rfl
        · right; right; exact ⟨_, rfl⟩
        · right; right; exact ⟨_, rfl⟩
      · left; rfl
    · right; left; rfl
  · left; rfl

theorem hasCol_setCol_ne (df : DataFrame) {m n : String} (h : m ≠ n)
    (d : ColData) : hasCol (setCol df m d) n = hasCol df n := by
  unfold hasCol
  rw [getCol_setCol_ne df h d]

/-- Claim C4 — the `try`/`except` of `feature_engineering` (lines
133–146): whenever the body raises (`raised = true`), the step still
returns a frame to its caller — the input frame itself, or the input
frame with only the `old_price` scratch column added — and that frame
carries no `discount_percentage` column (the input had none).  The
per-file pipeline therefore continues without the feature. -/
theorem feature_engineering_absorbs_errors (df : DataFrame)
    (hno : hasCol df "discount_percentage" = false)
    (hr : (feature_engineering_run df).2 = true) :
    (feature_engineering df = df ∨
      ∃ l, feature_engineering df = setCol df "old_price" (ColData.num l)) ∧
    hasCol (feature_engineering df) "discount_percentage" = false := by
  rcases feature_engineering_run_cases df with h | h | ⟨l, h⟩
  · rw [h] at hr
    exact absurd hr (by simp)
  · unfold feature_engineering
    rw [h]
    exact ⟨Or.inl rfl, hno⟩
  · unfold feature_engineering
    rw [h]
    refine ⟨Or.inr ⟨l, rfl⟩, ?_⟩
    rw [hasCol_setCol_ne df (by decide) _]
    exact hno

/-- Witness for C4: a frame whose `price_info` is already numeric (as
the pipeline always produces) makes the body raise at the `.str`
accessor; the step returns the frame unchanged, without a discount
column. -/
theorem feature_engineering_absorbs_errors_witness :
    hasCol [("price_info", ColData.num [some 2000]),
            ("price", ColData.num [some 1500])] "discount_percentage" =
      false ∧
    (feature_engineering_run
      [("price_info", ColData.num [some 2000]),
       ("price", ColData.num [some 1500])]).2 = true ∧
    hasCol (feature_engineering
      [("price_info", ColData.num [some 2000]),
       ("price", ColData.num [some 1500])]) "discount_percentage" = false :=
  ⟨by decide, by decide,
    (feature_engineering_absorbs_errors
      [("price_info", ColData.num [some 2000]),
       ("price", ColData.num [some 1500])] (by decide) (by decide)).2⟩

/-! ### `splitCh` lemmas -/

theorem splitCh_ne_nil (c : Char) (l : List Char) : splitCh c l ≠ [] := by
  cases l with
  | nil => simp [splitCh]
  | cons a as =>
      rw [splitCh]
      split
      · simp
      · split <;> simp

theorem splitCh_headD (c : Char) (l : List Char) :
    (splitCh c l).headD [] = l.takeWhile (fun a => a != c) := by
  induction l with
  | nil => rfl
  | cons a as ih =>
      rw [splitCh]
      by_cases hac : a == c
      · rw [if_pos hac]
        rw [List.takeWhile_cons]
        have : (a != c) = false := by
          simpa [bne] using hac
        rw [this]
        rfl
      · rw [if_neg hac]
        have hbn : (a != c) = true := by
          simpa [bne] using hac
        cases hr : splitCh c as with
        | nil => exact absurd hr (splitCh_ne_nil c as)
        | cons h t =>
            rw [List.takeWhile_cons, hbn]
            have := ih
            rw [hr] at this
            simp only [List.headD_cons] at this ⊢
            rw [this]
            simp

theorem splitCh_length (c : Char) (l : List Char) :
    (splitCh c l).length = l.countP (fun a => a == c) + 1 := by
  induction l with
  | nil => simp [splitCh]
  | cons a as ih =>
      rw [splitCh, List.countP_cons]
      by_cases hac : (a == c) = true
      · rw [if_pos hac, hac]
        simp only [List.length_cons, ih]
        simp
      · have hf : (a == c) = false := by simpa using hac
        rw [if_neg hac, hf, if_neg Bool.false_ne_true]
        cases hr : splitCh c as with
        | nil => exact absurd hr (splitCh_ne_nil c as)
        | cons h t =>
            rw [hr] at ih
            simp only [List.length_cons] at ih ⊢
            omega

theorem splitCh_snoc_sep (c : Char) (xs : List Char) :
    splitCh c (xs ++ [c]) = splitCh c xs ++ [[]] := by
  induction xs with
  | nil => simp [splitCh]
  | cons x xs ih =>
      rw [List.cons_append, splitCh, splitCh]
      rw [ih]
      by_cases hxc : x == c
      · rw [if_pos hxc, if_pos hxc]
        rfl
      · rw [if_neg hxc, if_neg hxc]
        cases hr : splitCh c xs with
        | nil => exact absurd hr (splitCh_ne_nil c xs)
        | cons h t => simp

theorem takeWhile_all {α : Type} {p : α → Bool} :
    ∀ {xs : List α}, (∀ a ∈ xs, p a = true) → xs.takeWhile p = xs := by
  intro xs h
  induction xs with
  | nil => rfl
  | cons a l ih =>
      rw [List.takeWhile_cons, h a (by simp)]
      rw [if_pos rfl]
      rw [ih (fun b hb => h b (by simp [hb]))]

theorem splitCh_snoc_getLastD (c a : Char) (hac : (a == c) = false)
    (xs : List Char) :
    (splitCh c (xs ++ [a])).getLastD [] =
      (splitCh c xs).getLastD [] ++ [a] := by
  induction xs with
  | nil => simp [splitCh, hac]
  | cons x xs ih =>
      rw [List.cons_append, splitCh, splitCh]
      by_cases hxc : (x == c) = true
      · rw [if_pos hxc, if_pos hxc]
        simp only [List.getLastD_cons]
        exact ih
      · rw [if_neg hxc, if_neg hxc]
        cases hr1 : splitCh c (xs ++ [a]) with
        | nil => exact absurd hr1 (splitCh_ne_nil _ _)
        | cons h t =>
            cases hr2 : splitCh c xs with
            | nil => exact absurd hr2 (splitCh_ne_nil _ _)
            | cons h2 t2 =>
                rw [hr1] at ih
                rw [hr2] at ih
                have hlen : t.length = t2.length := by
                  have e1 := splitCh_length c (xs ++ [a])
                  have e2 := splitCh_length c xs
                  rw [hr1, List.countP_append] at e1
                  rw [hr2] at e2
                  simp only [List.countP_cons, List.countP_nil, hac,
                    if_neg Bool.false_ne_true, List.length_cons] at e1 e2
                  omega
                cases ht : t with
                | nil =>
                    have ht2 : t2 = [] := by
                      rw [ht] at hlen
                      exact List.eq_nil_of_length_eq_zero hlen.symm
                    subst ht
                    subst ht2
                    have hh : h = (xs ++ [a]).takeWhile (fun b => b != c) := by
                      have hd := splitCh_headD c (xs ++ [a])
                      rw [hr1] at hd
                      simpa using hd
                    have hh2 : h2 = xs.takeWhile (fun b => b != c) := by
                      have hd := splitCh_headD c xs
                      rw [hr2] at hd
                      simpa using hd
                    have hcnt : xs.countP (fun b => b == c) = 0 := by
                      have e2 := splitCh_length c xs
                      rw [hr2] at e2
                      simpa using e2
                    have hall : ∀ b ∈ xs, (b != c) = true := by
                      intro b hb
                      have := List.countP_eq_zero.mp hcnt b hb
                      simpa [bne] using this
                    have hxs : xs.takeWhile (fun b => b != c) = xs :=
                      takeWhile_all hall
                    have hxsa :
                        (xs ++ [a]).takeWhile (fun b => b != c) = xs ++ [a] := by
                      refine takeWhile_all ?_
                      intro b hb
                      rcases List.mem_append.mp hb with hb | hb
                      · exact hall b hb
                      · have hba : b = a := by simpa using hb
                        subst hba
                        simpa [bne] using hac
                    rw [hh, hh2, hxs, hxsa]
                    simp
                | cons u v =>
                    cases ht2 : t2 with
                    | nil =>
                        rw [ht, ht2] at hlen
                        simp at hlen
                    | cons w z =>
                        subst ht
                        subst ht2
                        simp only [List.getLastD_cons] at ih ⊢
                        exact ih

/-- The last `'_'`-segment of a list is its suffix after the last
underscore. -/
theorem splitCh_getLastD (c : Char) (l : List Char) :
    (splitCh c l).getLastD [] = afterLast c l := by
  induction l using List.reverseRecOn with
  | nil => rfl
  | append_singleton xs a ih =>
      by_cases hac : (a == c) = true
      · have hae : a = c := by simpa using hac
        subst hae
        rw [splitCh_snoc_sep]
        rw [List.getLastD_eq_getLast?, List.getLast?_concat]
        unfold afterLast
        rw [List.reverse_append]
        simp [List.takeWhile_cons]
      · have hf : (a == c) = false := by simpa using hac
        rw [splitCh_snoc_getLastD c a hf, ih]
        unfold afterLast
        rw [List.reverse_append]
        simp only [List.reverse_cons, List.reverse_nil, List.nil_append,
          List.singleton_append, List.takeWhile_cons]
        have hbn : (a != c) = true := by simpa [bne] using hac
        rw [hbn, if_pos rfl, List.reverse_cons]

/-! ### Claim C9 -/

/-- Counterexample to C9 as stated: for `products_v1.2.csv` the code
takes the segment before the **first** dot (`"v1"`), not the part
before the extension (`"v1.2"`). -/
theorem categoryName_vs_extension_counterexample :
    categoryName "products_v1.2.csv" = "v1" ∧
    specCategoryByExtension "products_v1.2.csv" = "v1.2" ∧
    categoryName "products_v1.2.csv" ≠
      specCategoryByExtension "products_v1.2.csv" :=
  ⟨by decide, by decide, by decide⟩

/-- Claim C9 (amended) — the category label is the substring of the base
file name after the last underscore and before the **first dot**; it
names the per-category output file, and it is the value broadcast into
the `category` column when that column is absent. -/
theorem categoryName_spec (p : String) :
    categoryName p = specCategoryFirstDot p ∧
    (∀ df out, process_file p df = some out →
        out.1 = "processed_" ++ specCategoryFirstDot p ++ ".csv") ∧
    (∀ df2, hasCol df2 "category" = false →
        attrCategoryStep df2 (categoryName p) =
          setCol df2 "category"
            (.str (List.replicate (nRows df2)
              (some (specCategoryFirstDot p))))) := by
  have hmain : categoryName p = specCategoryFirstDot p := by
    unfold categoryName specCategoryFirstDot
    rw [splitCh_headD, splitCh_getLastD]
  refine ⟨hmain, ?_, ?_⟩
  · intro df out h
    unfold process_file at h
    obtain ⟨df2, h2, h3⟩ := Option.bind_eq_some.mp h
    obtain ⟨df3, h4, h5⟩ := Option.map_eq_some'.mp h3
    rw [← h5]
    unfold outputFileName
    rw [hmain]
  · intro df2 hno
    unfold attrCategoryStep
    rw [if_neg (by simp [hno]), hmain]

/-- Witness for C9 (amended) at a concrete one-row file. -/
theorem categoryName_spec_witness :
    process_file "dir/jumia_products_shoes.csv"
        [("Product Price", ColData.str [some "₦1,500"])] =
      some ("processed_shoes.csv",
        [("price", ColData.num [some 1500]),
         ("category", ColData.str [some "shoes"])]) ∧
    ("processed_shoes.csv",
        ([("price", ColData.num [some 1500]),
          ("category", ColData.str [some "shoes"])] : DataFrame)).1 =
      "processed_" ++ specCategoryFirstDot "dir/jumia_products_shoes.csv" ++
        ".csv" := by
  refine ⟨by decide, ?_⟩
  exact (categoryName_spec "dir/jumia_products_shoes.csv").2.1
    [("Product Price", ColData.str [some "₦1,500"])]
    ("processed_shoes.csv",
      [("price", ColData.num [some 1500]),
       ("category", ColData.str [some "shoes"])])
    (by decide)

/-! ### Claim C1 -/

/-- Claim C1 — evaluation of the fixed per-file pipeline at the claim's
row (`price_info = "old price ₦2,000"`, parsed price 1500).  Because
`clean_price_data` treats **every** column whose name contains
`"price"` as a price column, it converts `price_info` itself to the
number 2000 before `feature_engineering` runs; the `.str` accessor on
the now-numeric column raises, the exception is swallowed (the last
`feature_engineering_run` conjunct shows the `except` branch ran), and
no `discount_percentage` column is ever produced — even though the
old-price capture and the discount formula of lines 135–144 would give
exactly 25 on this row (last two conjuncts). -/
theorem process_file_discount_never_derived :
    process_file "jumia_products_shoes.csv"
        [("product_price", ColData.str [some "₦1,500"]),
         ("price_info", ColData.str [some "old price ₦2,000"])] =
      some ("processed_shoes.csv",
        [("price", ColData.num [some 1500]),
         ("price_info", ColData.num [some 2000]),
         ("category", ColData.str [some "shoes"])]) ∧
    hasCol [("price", ColData.num [some 1500]),
            ("price_info", ColData.num [some 2000]),
            ("category", ColData.str [some "shoes"])]
      "discount_percentage" = false ∧
    (feature_engineering_run
      [("price", ColData.num [some 1500]),
       ("price_info", ColData.num [some 2000]),
       ("category", ColData.str [some "shoes"])]).2 = true ∧
    scanOldPrice ("old price ₦2,000".data) = some "2,000" ∧
    (parseOldPrice "2,000" = some 2000 ∧
      round2 (((2000 : ℚ) - 1500) / 2000 * 100) = 25) :=
  ⟨by decide, by decide, by decide, by decide, by decide, by decide⟩

/-! ### Claim C2 — well-formedness propagation -/

theorem nRows_mapNames (f : String → String) (df : DataFrame) :
    nRows (df.map (fun p => (f p.1, p.2))) = nRows df := by
  cases df <;> rfl

theorem WF_mapNames (f : String → String) (df : DataFrame)
    (h : WF df = true) : WF (df.map (fun p => (f p.1, p.2))) = true := by
  unfold WF at h ⊢
  rw [List.all_eq_true] at h ⊢
  intro q hq
  obtain ⟨p, hp, rfl⟩ := List.mem_map.mp hq
  rw [nRows_mapNames f df]
  exact h p hp

theorem WF_standardize (df : DataFrame) (h : WF df = true) :
    WF (standardize_column_names df) = true := WF_mapNames _ df h

theorem WF_renameCol (df : DataFrame) (o n : String) (h : WF df = true) :
    WF (renameCol df o n) = true := WF_mapNames (fun s => if s = o then n else s) df h

theorem getCol_mem {df : DataFrame} {n : String} {d : ColData}
    (h : getCol df n = some d) : (n, d) ∈ df := by
  induction df with
  | nil => exact absurd h (by simp [getCol])
  | cons p rest ih =>
      rcases p with ⟨m, e⟩
      rw [getCol] at h
      by_cases hmn : m = n
      · rw [if_pos hmn] at h
        subst hmn
        cases h
        exact List.mem_cons_self _ _
      · rw [if_neg hmn] at h
        exact List.mem_cons_of_mem _ (ih h)

theorem nRows_setCol {df : DataFrame} {n : String} {d : ColData}
    (hl : d.length = nRows df) : nRows (setCol df n d) = nRows df := by
  cases df with
  | nil => simpa [setCol, nRows] using hl
  | cons p rest =>
      rcases p with ⟨m, e⟩
      rw [setCol]
      by_cases hmn : m = n
      · rw [if_pos hmn]
        simpa [nRows] using hl
      · rw [if_neg hmn]
        rfl

theorem setCol_mem {df : DataFrame} {n : String} {d : ColData} :
    ∀ q ∈ setCol df n d, q.2 = d ∨ q ∈ df := by
  induction df with
  | nil =>
      intro q hq
      rw [setCol] at hq
      left
      have : q = (n, d) := by simpa using hq
      rw [this]
  | cons p rest ih =>
      intro q hq
      rcases p with ⟨m, e⟩
      rw [setCol] at hq
      by_cases hmn : m = n
      · rw [if_pos hmn] at hq
        rcases List.mem_cons.mp hq with h | h
        · left; rw [h]
        · right; exact List.mem_cons_of_mem _ h
      · rw [if_neg hmn] at hq
        rcases List.mem_cons.mp hq with h | h
        · right; rw [h]; exact List.mem_cons_self _ _
        · rcases ih q h with h2 | h2
          · left; exact h2
          · right; exact List.mem_cons_of_mem _ h2

theorem WF_setCol {df : DataFrame} {n : String} {d : ColData}
    (hw : WF df = true) (hl : d.length = nRows df) :
    WF (setCol df n d) = true := by
  unfold WF
  rw [List.all_eq_true]
  intro q hq
  rw [nRows_setCol hl]
  rcases setCol_mem q hq with h | h
  · rw [h]
    simpa using hl
  · simpa using WF_col_length hw h

theorem mapM_option_length {α β : Type} {f : α → Option β} :
    ∀ {l : List α} {l2 : List β}, l.mapM f = some l2 → l2.length = l.length := by
  intro l
  induction l with
  | nil =>
      intro l2 h
      simp only [List.mapM_nil, Option.pure_def, Option.some_inj] at h
      rw [← h]
      rfl
  | cons a as ih =>
      intro l2 h
      rw [List.mapM_cons] at h
      cases hb : f a with
      | none => rw [hb] at h; simp at h
      | some b =>
          rw [hb] at h
          cases hr : as.mapM f with
          | none => rw [hr] at h; simp at h
          | some bs =>
              rw [hr] at h
              simp only [Option.bind_eq_bind, Option.some_bind,
                Option.pure_def, Option.some_inj] at h
              rw [← h, List.length_cons, ih hr, List.length_cons]

theorem cleanPriceCell_isSome_length {l : List (Option String)}
    {l2 : List (Option ℚ)} (h : cleanPriceCol l = some l2) :
    l2.length = l.length := mapM_option_length h

theorem cleanPriceEntry_length {p q : String × ColData}
    (h : cleanPriceEntry p = some q) : q.2.length = p.2.length := by
  unfold cleanPriceEntry at h
  rcases p with ⟨n, d⟩
  cases d with
  | num l =>
      simp only [Option.some_inj] at h
      rw [← h]
  | str l =>
      dsimp at h
      by_cases hs : hasSub ("price".data) ((lowerStr n).data) = true
      · rw [if_pos hs] at h
        cases hc : cleanPriceCol l with
        | none => rw [hc] at h; simp at h
        | some l2 =>
            rw [hc] at h
            simp only [Option.map_some', Option.some_inj] at h
            rw [← h]
            simpa [ColData.length] using cleanPriceCell_isSome_length hc
      · rw [if_neg hs] at h
        simp only [Option.some_inj] at h
        rw [← h]

theorem cleanPriceCols_shape {df df' : DataFrame}
    (h : cleanPriceCols df = some df') :
    nRows df' = nRows df ∧
    ∀ q ∈ df', ∃ p ∈ df, cleanPriceEntry p = some q := by
  induction df generalizing df' with
  | nil =>
      unfold cleanPriceCols at h
      simp only [List.mapM_nil, Option.pure_def, Option.some_inj] at h
      rw [← h]
      exact ⟨rfl, by simp⟩
  | cons p rest ih =>
      rw [cleanPriceCols, List.mapM_cons] at h
      cases hq : cleanPriceEntry p with
      | none => rw [hq] at h; simp at h
      | some q =>
          rw [hq] at h
          cases hr : rest.mapM cleanPriceEntry with
          | none => rw [hr] at h; simp at h
          | some rest' =>
              rw [hr] at h
              simp only [Option.bind_eq_bind, Option.some_bind,
                Option.pure_def, Option.some_inj] at h
              obtain ⟨hn, hmem⟩ := ih (by rw [cleanPriceCols]; exact hr)
              constructor
              · rw [← h]
                show q.2.length = nRows (p :: rest)
                rw [cleanPriceEntry_length hq]
                rfl
              · intro q2 hq2
                rw [← h] at hq2
                rcases List.mem_cons.mp hq2 with h2 | h2
                · exact ⟨p, List.mem_cons_self _ _, by rw [h2]; exact hq⟩
                · obtain ⟨p2, hp2, he⟩ := hmem q2 h2
                  exact ⟨p2, List.mem_cons_of_mem _ hp2, he⟩

theorem WF_clean_price {df df' : DataFrame} (hw : WF df = true)
    (h : clean_price_data df = some df') : WF df' = true := by
  unfold clean_price_data at h
  have hw2 : WF (renamePriceStep df) = true := by
    unfold renamePriceStep
    split
    · exact WF_renameCol df _ _ hw
    · exact hw
  obtain ⟨hn, hmem⟩ := cleanPriceCols_shape h
  unfold WF
  rw [List.all_eq_true]
  intro q hq
  obtain ⟨p, hp, he⟩ := hmem q hq
  rw [hn]
  have h1 := cleanPriceEntry_length he
  have h2 := WF_col_length hw2 hp
  simp only [beq_iff_eq]
  rw [h1, h2]

theorem WF_attrCategoryStep (df : DataFrame) (cat : String)
    (hw : WF df = true) : WF (attrCategoryStep df cat) = true := by
  unfold attrCategoryStep
  split
  · exact hw
  · exact WF_setCol hw (by simp [ColData.length])

theorem WF_attrNameStep {df out : DataFrame} (hw : WF df = true)
    (h : attrNameStep df = some out) : WF out = true := by
  unfold attrNameStep at h
  by_cases hp : hasCol df "product_name" = true
  · rw [if_pos hp] at h
    by_cases hn : hasCol df "name" = true
    · rw [if_pos hn] at h
      exact absurd h (by simp)
    · rw [if_neg hn] at h
      dsimp at h
      cases hg : getCol (renameCol df "product_name" "name") "name" with
      | none => rw [hg] at h; exact absurd h (by simp)
      | some e =>
          rw [hg] at h
          cases e with
          | num l => exact absurd h (by simp)
          | str l =>
              have hout := (Option.some_inj.mp h).symm
              rw [hout]
              have hwr : WF (renameCol df "product_name" "name") = true :=
                WF_renameCol df _ _ hw
              refine WF_setCol hwr ?_
              have := WF_col_length hwr (getCol_mem hg)
              simpa [ColData.length] using this
  · rw [if_neg hp] at h
    cases h
    exact hw

theorem WF_attrSizeStep {df out : DataFrame} (hw : WF df = true)
    (h : attrSizeStep df = some out) : WF out = true := by
  unfold attrSizeStep at h
  split at h
  · cases hg : getCol df "name" with
    | none => rw [hg] at h; exact absurd h (by simp)
    | some e =>
        rw [hg] at h
        cases e with
        | num l => exact absurd h (by simp)
        | str nd =>
            dsimp at h
            have hout := (Option.some_inj.mp h).symm
            rw [hout]
            have hlen : nd.length = nRows df := by
              have := WF_col_length hw (getCol_mem hg)
              simpa [ColData.length] using this
            refine WF_setCol hw ?_
            split
            · simp [ColData.length, List.enum_length, hlen]
            · simp [ColData.length, hlen]
  · cases h
    exact hw

theorem WF_attrBrandStep {df out : DataFrame} (hw : WF df = true)
    (h : attrBrandStep df = some out) : WF out = true := by
  unfold attrBrandStep at h
  split at h
  · cases hg : getCol df "name" with
    | none => rw [hg] at h; exact absurd h (by simp)
    | some e =>
        rw [hg] at h
        cases e with
        | num l => exact absurd h (by simp)
        | str nd =>
            have hout := (Option.some_inj.mp h).symm
            rw [hout]
            have hlen : nd.length = nRows df := by
              have := WF_col_length hw (getCol_mem hg)
              simpa [ColData.length] using this
            exact WF_setCol hw (by simp [ColData.length, hlen])
  · cases h
    exact hw

theorem WF_extract_attributes {df out : DataFrame} {cat : String}
    (hw : WF df = true) (h : extract_attributes df cat = some out) :
    WF out = true := by
  unfold extract_attributes at h
  obtain ⟨df2, h2, h3⟩ := Option.bind_eq_some.mp h
  obtain ⟨df3, h4, h5⟩ := Option.bind_eq_some.mp h3
  exact WF_attrBrandStep
    (WF_attrSizeStep (WF_attrNameStep (WF_attrCategoryStep df cat hw) h2) h4) h5

theorem cleanPriceEntry_numeric {p q : String × ColData}
    (h : cleanPriceEntry p = some q)
    (hs : hasSub ("price".data) ((lowerStr p.1).data) = true) :
    q.2.isNum = true := by
  unfold cleanPriceEntry at h
  rcases p with ⟨n, d⟩
  cases d with
  | num l =>
      simp only [Option.some_inj] at h
      rw [← h]
      rfl
  | str l =>
      dsimp at h hs
      rw [if_pos hs] at h
      cases hc : cleanPriceCol l with
      | none => rw [hc] at h; exact absurd h (by simp)
      | some l2 =>
          rw [hc] at h
          simp only [Option.map_some', Option.some_inj] at h
          rw [← h]
          rfl

theorem cleanPriceCols_getCol_isNum {df : DataFrame} :
    ∀ {df' : DataFrame} {n : String} {d : ColData},
    cleanPriceCols df = some df' →
    hasSub ("price".data) ((lowerStr n).data) = true →
    getCol df' n = some d → d.isNum = true := by
  induction df with
  | nil =>
      intro df' n d h hs hg
      unfold cleanPriceCols at h
      simp only [List.mapM_nil, Option.pure_def, Option.some_inj] at h
      rw [← h] at hg
      exact absurd hg (by simp [getCol])
  | cons p rest ih =>
      intro df' n d h hs hg
      rw [cleanPriceCols, List.mapM_cons] at h
      cases hq : cleanPriceEntry p with
      | none => rw [hq] at h; simp at h
      | some q =>
          rw [hq] at h
          cases hr : rest.mapM cleanPriceEntry with
          | none => rw [hr] at h; simp at h
          | some rest' =>
              rw [hr] at h
              simp only [Option.bind_eq_bind, Option.some_bind,
                Option.pure_def, Option.some_inj] at h
              rw [← h] at hg
              have hq1 : q.1 = p.1 := cleanPriceEntry_fst hq
              rcases q with ⟨q1, q2⟩
              simp only at hq1
              subst hq1
              rw [getCol] at hg
              by_cases hpn : p.1 = n
              · rw [if_pos hpn] at hg
                have hd : q2 = d := by cases hg; rfl
                subst hd
                exact cleanPriceEntry_numeric hq (by rw [hpn]; exact hs)
              · rw [if_neg hpn] at hg
                exact ih (by rw [cleanPriceCols]; exact hr) hs hg

theorem clean_price_price_cols_numeric {df df' : DataFrame} {n : String}
    {d : ColData} (h : clean_price_data df = some df')
    (hs : hasSub ("price".data) ((lowerStr n).data) = true)
    (hg : getCol df' n = some d) : d.isNum = true :=
  cleanPriceCols_getCol_isNum h hs hg

theorem getCol_mapCols (g : ColData → ColData) (df : DataFrame) (n : String) :
    getCol (df.map (fun p => (p.1, g p.2))) n = (getCol df n).map g := by
  induction df with
  | nil => rfl
  | cons p rest ih =>
      rcases p with ⟨m, e⟩
      rw [List.map_cons, getCol, getCol]
      by_cases hmn : m = n
      · rw [if_pos hmn, if_pos hmn]
        rfl
      · rw [if_neg hmn, if_neg hmn]
        exact ih

theorem getCol_handle_missing (df : DataFrame) (n : String) :
    getCol (handle_missing_and_duplicates df) n =
      (getCol df n).map
        (fun d => selectIdx (keepIdx (fillMissing df)) (fillCol d)) := by
  unfold handle_missing_and_duplicates dropDuplicates
  rw [getCol_mapCols]
  unfold fillMissing
  rw [getCol_mapCols]
  rw [Option.map_map]
  rfl

theorem selectIdx_fillCol_isNum (idxs : List Nat) (d : ColData) :
    (selectIdx idxs (fillCol d)).isNum = d.isNum := by
  cases d <;> rfl

theorem feature_engineering_id {df : DataFrame}
    (h : (∃ l, getCol df "price_info" = some (ColData.num l)) ∨
        hasCol df "price_info" = false ∨ hasCol df "price" = false) :
    feature_engineering df = df := by
  unfold feature_engineering feature_engineering_run
  by_cases hg : (hasCol df "price_info" && hasCol df "price") = true
  · rw [if_pos hg]
    cases hpi : getCol df "price_info" with
    | none =>
        exact absurd hpi (by
          have := (Bool.and_eq_true _ _).mp hg
          intro hc
          rw [hasCol, hc] at this
          simp at this)
    | some e =>
        cases e with
        | num l => rfl
        | str l =>
            rcases h with ⟨l2, hl2⟩ | h | h
            · rw [hpi] at hl2
              simp at hl2
            · rw [hasCol, hpi] at h
              simp at h
            · have := (Bool.and_eq_true _ _).mp hg
              rw [h] at this
              simp at this
  · rw [if_neg hg]

theorem extract_attributes_getCol_ne {df out : DataFrame} {cat : String}
    (h : extract_attributes df cat = some out) {n : String}
    (h1 : n ≠ "category") (h2 : n ≠ "product_name") (h3 : n ≠ "name")
    (h4 : n ≠ "extracted_size") (h5 : n ≠ "brand") :
    getCol out n = getCol df n := by
  unfold extract_attributes at h
  obtain ⟨a2, s2, s3⟩ := Option.bind_eq_some.mp h
  obtain ⟨a3, s4, s5⟩ := Option.bind_eq_some.mp s3
  rw [attrBrandStep_getCol_ne s5 h5, attrSizeStep_getCol_ne s4 h4,
    attrNameStep_getCol_ne s2 h2 h3, attrCategoryStep_getCol_ne df cat h1]

/-- Claim C2 — for every completed per-file run, the final per-category
frame has no missing value in any column.  (`clean_price_data` leaves
every `price`-named column numeric, `feature_engineering` therefore
takes its caught-exception path or is skipped, and the filled frame
passes through unchanged.) -/
theorem process_file_no_nulls (p : String) (df : DataFrame)
    (hwf : WF df = true) (out : String × DataFrame)
    (h : process_file p df = some out) :
    allFilled out.2 = true := by
  unfold process_file at h
  obtain ⟨df2, h2, h3⟩ := Option.bind_eq_some.mp h
  obtain ⟨df3, h4, h5⟩ := Option.map_eq_some'.mp h3
  have hw2 : WF df2 = true := WF_clean_price (WF_standardize df hwf) h2
  have hw3 : WF df3 = true := WF_extract_attributes hw2 h4
  have hfe : feature_engineering (handle_missing_and_duplicates df3) =
      handle_missing_and_duplicates df3 := by
    apply feature_engineering_id
    cases hpi : getCol df3 "price_info" with
    | none =>
        right
        left
        rw [hasCol, getCol_handle_missing, hpi]
        rfl
    | some d =>
        have hpi2 : getCol df2 "price_info" = some d := by
          rw [← extract_attributes_getCol_ne h4 (by decide) (by decide)
            (by decide) (by decide) (by decide)]
          exact hpi
        have hnum : d.isNum = true :=
          clean_price_price_cols_numeric h2 (by decide) hpi2
        cases d with
        | str l => exact absurd hnum (by simp [ColData.isNum])
        | num l =>
            left
            refine ⟨(keepIdx (fillMissing df3)).map
              (fun i => (((l.map (fun o => some (o.getD 0))).get? i).getD none)), ?_⟩
            rw [getCol_handle_missing, hpi]
            rfl
  have hout : out.2 = feature_engineering (handle_missing_and_duplicates df3) := by
    rw [← h5]
  rw [hout, hfe]
  exact handle_missing_filled df3 hw3

/-- Witness for C2: a one-column file with a missing cell runs through
the pipeline and ends fully populated. -/
theorem process_file_no_nulls_witness :
    WF [("a", ColData.str [some "x", none])] = true ∧
    process_file "t_c.csv" [("a", ColData.str [some "x", none])] =
      some ("processed_c.csv",
        [("a", ColData.str [some "x", some "Unknown"]),
         ("category", ColData.str [some "c", some "c"])]) ∧
    allFilled
      ([("a", ColData.str [some "x", some "Unknown"]),
        ("category", ColData.str [some "c", some "c"])] : DataFrame) = true :=
  ⟨by decide, by decide,
    process_file_no_nulls "t_c.csv" [("a", ColData.str [some "x", none])]
      (by decide)
      ("processed_c.csv",
        [("a", ColData.str [some "x", some "Unknown"]),
         ("category", ColData.str [some "c", some "c"])])
      (by decide)⟩

/-! ### Claim C8 -/

theorem dedupF_mem {α : Type} [DecidableEq α] :
    ∀ (l seen : List α) (a : α),
      a ∈ dedupF seen l ↔ a ∈ l ∧ a ∉ seen := by
  intro l
  induction l with
  | nil =>
      intro seen a
      simp [dedupF]
  | cons b rest ih =>
      intro seen a
      rw [dedupF]
      by_cases hb : b ∈ seen
      · rw [if_pos hb, ih]
        constructor
        · rintro ⟨h1, h2⟩
          exact ⟨List.mem_cons_of_mem _ h1, h2⟩
        · rintro ⟨h1, h2⟩
          rcases List.mem_cons.mp h1 with h | h
          · subst h
            exact absurd hb h2
          · exact ⟨h, h2⟩
      · rw [if_neg hb]
        constructor
        · intro h
          rcases List.mem_cons.mp h with h | h
          · subst h
            exact ⟨List.mem_cons_self _ _, hb⟩
          · obtain ⟨h1, h2⟩ := (ih _ _).mp h
            refine ⟨List.mem_cons_of_mem _ h1, fun hc => h2 ?_⟩
            exact List.mem_cons_of_mem _ hc
        · rintro ⟨h1, h2⟩
          rcases List.mem_cons.mp h1 with h | h
          · subst h
            exact List.mem_cons_self _ _
          · by_cases hab : a = b
            · subst hab
              exact List.mem_cons_self _ _
            · refine List.mem_cons_of_mem _ ((ih _ _).mpr ⟨h, ?_⟩)
              intro hc
              rcases List.mem_cons.mp hc with hc | hc
              · exact hab hc
              · exact h2 hc

theorem dedupF_nodup {α : Type} [DecidableEq α] :
    ∀ (l seen : List α), (dedupF seen l).Nodup := by
  intro l
  induction l with
  | nil => intro seen; simp [dedupF]
  | cons b rest ih =>
      intro seen
      rw [dedupF]
      by_cases hb : b ∈ seen
      · rw [if_pos hb]
        exact ih seen
      · rw [if_neg hb]
        rw [List.nodup_cons]
        refine ⟨fun hc => ?_, ih _⟩
        have := (dedupF_mem rest (b :: seen) b).mp hc
        exact this.2 (List.mem_cons_self _ _)

theorem length_toU (d : ColData) : (toU d).length = d.length := by
  cases d <;> simp [toU, ColData.length]

theorem nRowsU_combine (d1 d2 : DataFrame) (h2 : WF d2 = true) :
    nRowsU (combine_datasets d1 d2) = nRows d1 + nRows d2 := by
  cases d1 with
  | nil =>
      unfold combine_datasets
      cases d2 with
      | nil => rfl
      | cons q rest =>
          simp only [List.map_nil, List.nil_append, List.filter_cons]
          have hkeep : (!hasCol ([] : DataFrame) q.1) = true := by
            simp [hasCol, getCol]
          rw [if_pos hkeep]
          show (List.replicate (nRows ([] : DataFrame)) none ++ toU q.2).length =
            0 + q.2.length
          rw [List.length_append, List.length_replicate, length_toU]
          rfl
  | cons p rest =>
      unfold combine_datasets
      simp only [List.map_cons, List.cons_append, nRowsU, nRows]
      rw [List.length_append, length_toU]
      congr 1
      unfold uDataOf
      cases hg : getCol d2 p.1 with
      | none => simp
      | some d =>
          rw [length_toU]
          exact WF_col_length h2 (getCol_mem hg)

/-- Claim C8 — `combine_datasets` concatenates rows (`N1 + N2`), and
`create_summary_statistics` emits exactly one row per distinct non-null
category value of the combined frame: its keys are pairwise distinct and
are exactly the values occurring in the `category` column. -/
theorem combine_summary_spec (d1 d2 : DataFrame)
    (h2 : WF d2 = true) (cat : List (Option UVal))
    (hcat : getColU (combine_datasets d1 d2) "category" = some cat) :
    nRowsU (combine_datasets d1 d2) = nRows d1 + nRows d2 ∧
    ∃ smry, create_summary_statistics (combine_datasets d1 d2) = some smry ∧
      (smry.map (fun r => r.1)).Nodup ∧
      ∀ v, v ∈ smry.map (fun r => r.1) ↔ some v ∈ cat := by
  refine ⟨nRowsU_combine d1 d2 h2, ?_⟩
  unfold create_summary_statistics
  rw [hcat]
  dsimp only
  have hkeys : ∀ (f : UVal → UVal × List (Option ℚ)),
      (∀ k, (f k).1 = k) →
      ((((dedupF [] (cat.filterMap id)).map f).map (fun r => r.1)).Nodup ∧
        ∀ v, v ∈ ((dedupF [] (cat.filterMap id)).map f).map (fun r => r.1) ↔
          some v ∈ cat) := by
    intro f hf
    have hm : ((dedupF [] (cat.filterMap id)).map f).map (fun r => r.1) =
        dedupF [] (cat.filterMap id) := by
      rw [List.map_map]
      have hfe : ((fun r : UVal × List (Option ℚ) => r.1) ∘ f) =
          fun k => k := funext fun k => hf k
      rw [hfe]
      exact List.map_id _
    rw [hm]
    refine ⟨dedupF_nodup _ _, fun v => ?_⟩
    rw [dedupF_mem]
    simp only [List.not_mem_nil, not_false_iff, and_true]
    constructor
    · intro h
      obtain ⟨o, ho, he⟩ := List.mem_filterMap.mp h
      cases o with
      | none => exact absurd he (by simp)
      | some w =>
          have : w = v := by simpa using he
          subst this
          exact ho
    · intro h
      exact List.mem_filterMap.mpr ⟨some v, h, rfl⟩
  by_cases hC : (hasColU (combine_datasets d1 d2) "price" ||
      hasColU (combine_datasets d1 d2) "discount_percentage") = true
  · rw [if_pos hC]
    exact ⟨_, rfl, hkeys (fun k => (k, aggRow (combine_datasets d1 d2) cat k))
      (fun k => rfl)⟩
  · rw [if_neg hC]
    exact ⟨_, rfl, hkeys (fun k => (k, [some (((groupIdxs cat k).length : ℚ))]))
      (fun k => rfl)⟩

/-- Witness for C8: two one-row category frames combine to two rows and
summarize to one row per category. -/
theorem combine_summary_spec_witness :
    WF [("price", ColData.num [some 2]),
        ("category", ColData.str [some "bags"])] = true ∧
    getColU (combine_datasets
        [("price", ColData.num [some 1]),
         ("category", ColData.str [some "shoes"])]
        [("price", ColData.num [some 2]),
         ("category", ColData.str [some "bags"])]) "category" =
      some [some (UVal.s "shoes"), some (UVal.s "bags")] ∧
    nRowsU (combine_datasets
        [("price", ColData.num [some 1]),
         ("category", ColData.str [some "shoes"])]
        [("price", ColData.num [some 2]),
         ("category", ColData.str [some "bags"])]) = 1 + 1 :=
  ⟨by decide, by decide,
    (combine_summary_spec
      [("price", ColData.num [some 1]),
       ("category", ColData.str [some "shoes"])]
      [("price", ColData.num [some 2]),
       ("category", ColData.str [some "bags"])]
      (by decide)
      [some (UVal.s "shoes"), some (UVal.s "bags")]
      (by decide)).1⟩
